import Mathlib

/-!
Verification development for the AutoHPO repository.

Strings from the Python source are modelled as `List Char` (`Str`).
Python's whitespace notion (`str.split()`, `str.strip()`) is modelled
uniformly by `Char.isWhitespace`; case mapping (`str.upper()`, the
`re.IGNORECASE` flag) is modelled uniformly by `Char.toUpper` /
`Char.toLower`.  Dynamic JSON values (`dict.get` returning `None`) are
modelled by `Option`.
-/

set_option maxRecDepth 4000

abbrev Str := List Char

/-- Whitespace test used throughout (models Python's whitespace class). -/
def isWs (c : Char) : Bool := c.isWhitespace

/-- Model of Python `str.strip()`: drop leading and trailing whitespace. -/
def stripChars (s : Str) : Str :=
  ((s.dropWhile isWs).reverse.dropWhile isWs).reverse

/-- Helper for `words`: scans the string, `acc` holds the (reversed) current
word.  Models Python's no-argument `str.split()`. -/
def wordsAux : Str → Str → List Str
  | [], acc => if acc = [] then [] else [acc.reverse]
  | c :: cs, acc =>
    if isWs c then
      if acc = [] then wordsAux cs [] else acc.reverse :: wordsAux cs []
    else wordsAux cs (c :: acc)

/-- Model of Python `str.split()` with no argument: maximal runs of
non-whitespace characters. -/
def words (s : Str) : List Str := wordsAux s []

/-- Model of Python `sep.join(parts)`. -/
def joinSep (sep : Str) : List Str → Str
  | [] => []
  | [w] => w
  | w :: x :: t => w ++ sep ++ joinSep sep (x :: t)

/-- Model of `app/hpo.py` `prepare_search_query`: empty if the input is
blank, otherwise the whitespace-split words joined by single spaces
(`" ".join(query.strip().split())`). -/
def prepare_search_query (query : Str) : Str :=
  if stripChars query = [] then [] else joinSep [' '] (words (stripChars query))

/-- Model of `app/search.py` `_normalize_query` (same code as
`prepare_search_query`). -/
def normalize_query (query : Str) : Str :=
  if stripChars query = [] then [] else joinSep [' '] (words (stripChars query))

/-- Two adjacent characters are not both whitespace. -/
def noAdjWs (a b : Char) : Prop := isWs a = false ∨ isWs b = false

/-- One in-memory HPO term of the fallback snapshot: the dict with keys
hpo_id, name, definition, synonyms_str built by `_parse_obographs`. -/
structure HpoRec where
  hpo_id : Str
  name : Str
  definition : Str
  synonyms_str : Str
deriving DecidableEq

/-- Character-wise lower casing, modelling `re.IGNORECASE` matching. -/
def lowerStr (s : Str) : Str := s.map Char.toLower

/-- Character-wise upper casing, modelling `str.upper()`. -/
def upperStr (s : Str) : Str := s.map Char.toUpper

/-- Plain substring test: does `pat` occur inside `hay` (the pattern is
`re.escape`d in the source, so it is a literal). -/
def strContains : Str → Str → Bool
  | [], pat => List.isPrefixOf pat []
  | c :: t, pat => List.isPrefixOf pat (c :: t) || strContains t pat

/-- Case-insensitive containment, modelling `re.IGNORECASE` search. -/
def ciContains (hay pat : Str) : Bool := strContains (lowerStr hay) (lowerStr pat)

/-- The dict built for a matched record in `search` (and in
`get_term_by_id`): same fields, definition truncated to 500 characters. -/
def projectRec (t : HpoRec) : HpoRec :=
  { hpo_id := t.hpo_id, name := t.name,
    definition := t.definition.take 500, synonyms_str := t.synonyms_str }

/-- The test of the `if` in the match loop of `search`: the pattern matches
hpo_id, name, definition or synonyms_str. -/
def recMatches (q : Str) (t : HpoRec) : Bool :=
  ciContains t.hpo_id q || ciContains t.name q || ciContains t.definition q ||
    ciContains t.synonyms_str q

/-- The accumulation loop of `search`: append the projected record, breaking
once `limit` matches have been collected (`n` counts matches so far, so the
`len(matched) >= limit` test after an append reads `limit ≤ n + 1`). -/
def searchLoop (q : Str) (limit : Nat) : List HpoRec → Nat → List HpoRec
  | [], _ => []
  | t :: ts, n =>
    if recMatches q t then
      if limit ≤ n + 1 then [projectRec t]
      else projectRec t :: searchLoop q limit ts (n + 1)
    else searchLoop q limit ts n

/-- Model of `app/search.py` `search`: empty snapshot gives `[]`; a blank
(stripped) query returns the first `limit` raw records; otherwise the match
loop runs on the stripped query. -/
def search (terms : List HpoRec) (query : Str) (limit : Nat) : List HpoRec :=
  if terms = [] then []
  else
    let q := stripChars query
    if q = [] then terms.take limit
    else searchLoop q limit terms 0

/-- Split at the first occurrence of `sep`, if any (models
`str.split(sep, 1)` / `str.replace(old, new, 1)`). -/
def splitOnce (sep : Char) : Str → Option (Str × Str)
  | [] => none
  | c :: cs =>
    if c = sep then some ([], cs)
    else (splitOnce sep cs).map (fun p => (c :: p.1, p.2))

/-- Replace the first occurrence of `sep` by `rep`, models
`str.replace(sep, rep, 1)`. -/
def replaceFirst (sep rep : Char) (s : Str) : Str :=
  match splitOnce sep s with
  | some (a, b) => a ++ rep :: b
  | none => s

/-- The id canonicalization of `get_term_by_id`:
`term_id.strip().replace("_", ":", 1) if "_" in term_id else term_id.strip()`. -/
def lookupQuery (term_id : Str) : Str :=
  if term_id.contains '_' then replaceFirst '_' ':' (stripChars term_id)
  else stripChars term_id

/-- Model of `app/search.py` `get_term_by_id`: first record whose hpo_id
matches the canonicalized id case-insensitively, projected; `none` when the
snapshot is empty or nothing matches. -/
def get_term_by_id (terms : List HpoRec) (term_id : Str) : Option HpoRec :=
  if terms = [] then none
  else
    match terms.find? (fun t => upperStr t.hpo_id == upperStr (lookupQuery term_id)) with
    | some t => some (projectRec t)
    | none => none

/-- Model of `str.split(sep)` with an explicit separator (keeps empty
segments, always returns at least one segment). -/
def splitOnChar (sep : Char) : Str → List Str
  | [] => [[]]
  | c :: cs =>
    if c = sep then [] :: splitOnChar sep cs
    else
      match splitOnChar sep cs with
      | [] => [[c]]
      | w :: ws => (c :: w) :: ws

/-- Model of `_curie_from_id` (`app/search.py`, identical in
`scripts/load_hpo.py`): empty for empty input; for URIs take the last `/`
segment and replace its first underscore by a colon upper-casing the
namespace; otherwise replace the first underscore by a colon. -/
def curie_from_id (node_id : Str) : Str :=
  if node_id = [] then []
  else if strContains node_id ("://".toList) then
    let part := (splitOnChar '/' node_id).getLastD []
    match splitOnce '_' part with
    | some (ns, rest) => upperStr ns ++ ':' :: rest
    | none => part
  else
    match splitOnce '_' node_id with
    | some (a, b) => a ++ ':' :: b
    | none => node_id

/-- One node of the obographs JSON: `id`, `lbl`, the `val` of
`meta.definition` when that is a dict, and the `val` of each entry of
`meta.synonyms` (`none` models a non-dict entry or a missing `val`). -/
structure ObNode where
  id : Option Str
  lbl : Option Str
  defVal : Option Str
  synonyms : List (Option Str)

/-- One graph of the obographs JSON: its node list. -/
structure ObGraph where
  nodes : List ObNode

/-- The record appended for one node by `_parse_obographs`: curie of the id
(or of `""`), stripped label and definition text, truthy synonym values
stripped and joined by `" | "`. -/
def parseNode (n : ObNode) : HpoRec :=
  let syns := n.synonyms.filterMap (fun o =>
    match o with
    | some v => if v = [] then none else some (stripChars v)
    | none => none)
  { hpo_id := curie_from_id (n.id.getD [])
    name := stripChars (n.lbl.getD [])
    definition := stripChars (n.defVal.getD [])
    synonyms_str := if syns = [] then [] else joinSep (" | ".toList) syns }

/-- Model of `app/search.py` `_parse_obographs`: append one record per node
of every graph, in order; no record is dropped. -/
def parse_obographs (gs : List ObGraph) : List HpoRec :=
  gs.foldl (fun out g => g.nodes.foldl (fun out n => out ++ [parseNode n]) out) []

/-! Primary search client (`app/hpo.py`), with fallible collaborators as
parameters; exceptions are modelled by `Except.error`. -/

abbrev Vec := List Int

/-- One raw Meilisearch hit: a JSON object.  `keys` models `hit.keys()`;
absent or null keys are `none`. -/
structure Hit where
  keys : List Str
  hpo_id : Option Str
  name : Option Str
  definition : Option Str
  synonyms_str : Option Str
deriving DecidableEq

/-- The dict emitted by `search_hpo` / `search_hpo_results` for one hit:
`hpo_id` and `name` are passed through unchanged (so may be null), the
definition is defaulted to `""` and truncated, synonyms defaulted to `""`. -/
structure OutRec where
  hpo_id : Option Str
  name : Option Str
  definition : Str
  synonyms_str : Str
deriving DecidableEq

/-- The per-hit projection shared by `search_hpo` and `search_hpo_results`. -/
def projectHit (h : Hit) : OutRec :=
  { hpo_id := h.hpo_id, name := h.name,
    definition := (h.definition.getD []).take 500,
    synonyms_str := h.synonyms_str.getD [] }

/-- Default embedder name (`HPO_EMBEDDING_MODEL` in `app/hpo.py`). -/
def HPO_EMBEDDING_MODEL : Str := "all-MiniLM-L6-v2".toList

/-- The parameters passed to `index.search` (the vector is the real list,
unlike the redacted copy stored in the debug dict). -/
structure ActualParams where
  limit : Nat
  vector : Option Vec
  hybrid : Option Str
deriving DecidableEq

/-- The query actually sent by `search_hpo` / `search_hpo_results`:
`search_q = q if q else query.strip()` after `q = prepare_search_query(query)`. -/
def effective_query (query : Str) : Str :=
  if prepare_search_query query = [] then stripChars query
  else prepare_search_query query

/-- The parameters dict built for `index.search`: limit always, vector and
hybrid embedder only when a query vector exists. -/
def mkActualParams (limit : Nat) (vec? : Option Vec) : ActualParams :=
  { limit := limit, vector := vec?,
    hybrid := match vec? with
              | some _ => some HPO_EMBEDDING_MODEL
              | none => none }

/-- Model of `app/hpo.py` `search_hpo`.  `getIndex` models `get_index()`
(which may raise), `embed` models `_embed_query` (`.ok none` when no model
is available), `indexSearch` models `index.search`.  This function has no
try/except: collaborator failures propagate to the caller.  The embedding
is only computed for a non-empty `search_q`
(`query_vector = _embed_query(search_q) if search_q else None`). -/
def search_hpo (getIndex : Except Str Unit)
    (embed : Str → Except Str (Option Vec))
    (indexSearch : Str → ActualParams → Except Str (List Hit))
    (query : Str) (limit : Nat) : Except Str (List OutRec) :=
  match getIndex with
  | .error e => .error e
  | .ok _ =>
    match (if effective_query query = [] then .ok none
           else embed (effective_query query)) with
    | .error e => .error e
    | .ok vec? =>
      match indexSearch (effective_query query) (mkActualParams limit vec?) with
      | .error e => .error e
      | .ok hits => .ok (hits.map projectHit)

/-- The redacted search-params copy stored in the debug dict: the vector is
replaced by its dimension count (never the raw floats). -/
structure ParamsDbg where
  limit : Nat
  vector_dims : Option Nat
  embedder : Option Str
deriving DecidableEq

/-- The debug dict of `search_hpo_results`, fields in source order;
`search_params = none` models the initial empty dict, `vector_note` the
top-level `debug["vector"]` note. -/
structure DebugInfo where
  query_raw : Str
  query_sent : Str
  search_params : Option ParamsDbg
  vector_note : Option Str
  hit_count : Nat
  raw_first_hit_keys : List Str
  error : Option Str
deriving DecidableEq

/-- The redacted params copy stored in the debug dict by
`search_hpo_results`: the vector appears only as its dimension count. -/
def mkParamsDbg (limit : Nat) (vec? : Option Vec) : ParamsDbg :=
  match vec? with
  | some v => { limit := limit, vector_dims := some v.length,
                embedder := some HPO_EMBEDDING_MODEL }
  | none => { limit := limit, vector_dims := none, embedder := none }

/-- The `debug["vector"] = "no embedding model"` note, set only when no
query vector was produced. -/
def mkVectorNote (vec? : Option Vec) : Option Str :=
  match vec? with
  | some _ => none
  | none => some "no embedding model".toList

/-- The debug dict of `search_hpo_results` as first constructed. -/
def initDebug (query : Str) : DebugInfo :=
  { query_raw := query, query_sent := effective_query query,
    search_params := none, vector_note := none, hit_count := 0,
    raw_first_hit_keys := [], error := none }

/-- Model of `app/hpo.py` `search_hpo_results`: never raises; an empty
post-normalization query and every failure of a collaborator are caught and
recorded in `debug.error` with an empty result list.  Debug fields set
before the failing step persist, as in the source. -/
def search_hpo_results (getIndex : Except Str Unit)
    (embed : Str → Except Str (Option Vec))
    (indexSearch : Str → ActualParams → Except Str (List Hit))
    (query : Str) (limit : Nat) : List OutRec × DebugInfo :=
  if effective_query query = [] then
    ([], { initDebug query with
           error := some "empty query after normalization".toList })
  else
    match getIndex with
    | .error e => ([], { initDebug query with error := some e })
    | .ok _ =>
      match embed (effective_query query) with
      | .error e => ([], { initDebug query with error := some e })
      | .ok vec? =>
        let debug1 : DebugInfo :=
          { initDebug query with
            search_params := some (mkParamsDbg limit vec?)
            vector_note := mkVectorNote vec? }
        match indexSearch (effective_query query) (mkActualParams limit vec?) with
        | .error e => ([], { debug1 with error := some e })
        | .ok hits =>
          (hits.map projectHit,
           { debug1 with
             hit_count := hits.length
             raw_first_hit_keys := (hits.head?.map Hit.keys).getD [] })

/-- Default URL substituted by `init_app` when MEILISEARCH_URL is falsy. -/
def DEFAULT_MEILISEARCH_URL : Str := "http://localhost:7700".toList

/-- URL resolution in `app/hpo.py` `init_app`:
`(os.environ.get("MEILISEARCH_URL") or "http://localhost:7700").strip()`;
`env = none` models an unset variable. -/
def resolve_meilisearch_url (env : Option Str) : Str :=
  stripChars (match env with
    | none => DEFAULT_MEILISEARCH_URL
    | some s => if s = [] then DEFAULT_MEILISEARCH_URL else s)

/-- The `_client` module state of `app/hpo.py` (the client is identified by
the URL it was constructed with). -/
structure HpoModuleState where
  client : Option Str
deriving DecidableEq

/-- Model of `app/hpo.py` `init_app`, restricted to the `_client` slot:
constructs a client when none exists, otherwise a no-op. -/
def hpo_init_app (env : Option Str) (st : HpoModuleState) : HpoModuleState :=
  if st.client = none then { client := some (resolve_meilisearch_url env) }
  else st

/-- Model of `app/hpo.py` `get_client`: initialise if needed, then return
the client, or raise ValueError if it is still missing. -/
def get_client (env : Option Str) (st : HpoModuleState) :
    Except Str (Str × HpoModuleState) :=
  let st1 := if st.client = none then hpo_init_app env st else st
  match st1.client with
  | some c => .ok (c, st1)
  | none => .error "Failed to initialize Meilisearch client".toList

/-- Modelled from the spec: `search_funnel` is imported from `app.search` by
`app/web.py` and `tests/test_hpo.py`, but its definition is missing from the
sources.  Spec section 4.5: always attempt the Primary Search Client first;
on ANY failure from it, catch (do not propagate) and fall back to the
Fallback Search Engine with the normalized query.  `primary` abstracts the
primary client, which may raise; the `Except` result type makes an uncaught
exception representable at the funnel boundary. -/
def search_funnel (primary : Str → Nat → Except Str (List HpoRec))
    (snapshot : List HpoRec) (query : Str) (limit : Nat) :
    Except Str (List HpoRec) :=
  match primary query limit with
  | .ok rs => .ok rs
  | .error _ => .ok (search snapshot (prepare_search_query query) limit)

/-- `TermDebug` of `app/agent.py`, restricted to the fields populated by
`_build_hpo_matches`. -/
structure TermDebug where
  term : Str
  query_sent : Str
  hit_count : Nat
  search_params : Option ParamsDbg
  raw_first_hit_keys : List Str
  error : Option Str
  top_result : Option OutRec
deriving DecidableEq

/-- `HPOMatch` of `app/agent.py`: fields mirror the dict values passed to
the constructor (`none` would be a backend hit carrying a JSON null). -/
structure HPOMatch where
  medical_term : Str
  hpo_id : Option Str
  hpo_name : Option Str
  hpo_definition : Option Str
deriving DecidableEq

/-- Model of `app/agent.py` `_build_hpo_matches`, parameterized by the
per-term searcher (`hpo.search_hpo_results` with its collaborators and the
per-term limit fixed).  One match row and one debug row are appended per
input term; an empty result list yields the placeholder row with the
original term and empty fields. -/
def build_hpo_matches (searcher : Str → List OutRec × DebugInfo) :
    List Str → List HPOMatch × List TermDebug
  | [] => ([], [])
  | term :: rest =>
    let rd := searcher term
    let td : TermDebug :=
      { term := term, query_sent := rd.2.query_sent,
        hit_count := rd.2.hit_count, search_params := rd.2.search_params,
        raw_first_hit_keys := rd.2.raw_first_hit_keys, error := rd.2.error,
        top_result := rd.1.head? }
    let m : HPOMatch :=
      match rd.1 with
      | top :: _ =>
        { medical_term := term, hpo_id := top.hpo_id, hpo_name := top.name,
          hpo_definition := some top.definition }
      | [] =>
        { medical_term := term, hpo_id := some [], hpo_name := some [],
          hpo_definition := some [] }
    let rest' := build_hpo_matches searcher rest
    (m :: rest'.1, td :: rest'.2)

theorem normalize_query_eq_prepare (q : Str) :
    normalize_query q = prepare_search_query q := rfl

/-! Basic lemmas about `wordsAux`, `words` and `joinSep`. -/

theorem mem_takeWhile_ws {p : Char → Bool} {l : Str} {a : Char}
    (h : a ∈ l.takeWhile p) : p a = true := by
  induction l with
  | nil => simp [List.takeWhile] at h
  | cons c cs ih =>
    by_cases hc : p c = true
    · rw [List.takeWhile_cons, if_pos hc] at h
      rcases List.mem_cons.mp h with h1 | h2
      · subst h1; exact hc
      · exact ih h2
    · rw [List.takeWhile_cons, if_neg hc] at h
      simp at h

theorem wordsAux_allWs (t : Str) (acc : Str) (h : ∀ c ∈ t, isWs c = true) :
    wordsAux t acc = if acc = [] then [] else [acc.reverse] := by
  induction t generalizing acc with
  | nil => rfl
  | cons c cs ih =>
    have hc : isWs c = true := h c (List.mem_cons_self c cs)
    have hcs : ∀ x ∈ cs, isWs x = true := fun x hx => h x (List.mem_cons_of_mem c hx)
    by_cases hacc : acc = []
    · subst hacc; simp [wordsAux, hc, ih [] hcs]
    · simp [wordsAux, hc, hacc, ih [] hcs]

theorem wordsAux_append_allWs (s t : Str) (acc : Str) (h : ∀ c ∈ t, isWs c = true) :
    wordsAux (s ++ t) acc = wordsAux s acc := by
  induction s generalizing acc with
  | nil =>
    simp only [List.nil_append]
    rw [wordsAux_allWs t acc h]; rfl
  | cons c cs ih =>
    simp only [List.cons_append, wordsAux]
    by_cases hc : isWs c = true
    · by_cases hacc : acc = [] <;> simp [hc, hacc, ih]
    · simp [hc, ih]

theorem wordsAux_dropWhile_ws (s : Str) :
    wordsAux (s.dropWhile isWs) [] = wordsAux s [] := by
  induction s with
  | nil => rfl
  | cons c cs ih =>
    by_cases hc : isWs c = true
    · rw [List.dropWhile_cons, if_pos hc, ih]
      simp [wordsAux, hc]
    · rw [List.dropWhile_cons, if_neg hc]

theorem words_strip (s : Str) : words (stripChars s) = words s := by
  unfold words
  conv_rhs => rw [← wordsAux_dropWhile_ws]
  have hdecomp : s.dropWhile isWs =
      stripChars s ++ ((s.dropWhile isWs).reverse.takeWhile isWs).reverse := by
    unfold stripChars
    conv_lhs =>
      rw [← List.reverse_reverse (s.dropWhile isWs),
        ← List.takeWhile_append_dropWhile isWs (s.dropWhile isWs).reverse]
    rw [List.reverse_append]
  conv_rhs => rw [hdecomp]
  rw [wordsAux_append_allWs]
  intro c hc
  exact mem_takeWhile_ws (List.mem_reverse.mp hc)

theorem wordsAux_good (s : Str) :
    ∀ acc, (∀ c ∈ acc, isWs c = false) →
      ∀ w ∈ wordsAux s acc, w ≠ [] ∧ ∀ c ∈ w, isWs c = false := by
  induction s with
  | nil =>
    intro acc hacc w hw
    by_cases h : acc = []
    · subst h; simp [wordsAux] at hw
    · simp only [wordsAux, if_neg h, List.mem_singleton] at hw
      subst hw
      refine ⟨by simpa using h, ?_⟩
      intro c hc; exact hacc c (List.mem_reverse.mp hc)
  | cons c cs ih =>
    intro acc hacc w hw
    by_cases hc : isWs c = true
    · by_cases h : acc = []
      · subst h
        simp only [wordsAux, hc, if_pos rfl, if_true] at hw
        exact ih [] (by simp) w hw
      · simp only [wordsAux, hc, if_true, if_neg h, List.mem_cons] at hw
        rcases hw with h1 | h2
        · subst h1
          refine ⟨by simpa using h, ?_⟩
          intro x hx; exact hacc x (List.mem_reverse.mp hx)
        · exact ih [] (by simp) w h2
    · have hc' : isWs c = false := by simpa using hc
      simp only [wordsAux, hc', if_false, Bool.false_eq_true] at hw
      refine ih (c :: acc) ?_ w hw
      intro x hx
      rcases List.mem_cons.mp hx with h1 | h2
      · subst h1; exact hc'
      · exact hacc x h2

theorem words_good (s : Str) :
    ∀ w ∈ words s, w ≠ [] ∧ ∀ c ∈ w, isWs c = false :=
  wordsAux_good s [] (by simp)

theorem wordsAux_join (s : Str) :
    ∀ acc, (wordsAux s acc).flatten = acc.reverse ++ s.filter (fun c => !isWs c) := by
  induction s with
  | nil =>
    intro acc
    by_cases h : acc = [] <;> simp [wordsAux, h]
  | cons c cs ih =>
    intro acc
    by_cases hc : isWs c = true
    · by_cases h : acc = []
      · subst h; simp [wordsAux, hc, List.filter_cons, ih]
      · simp [wordsAux, hc, h, List.filter_cons, ih []]
    · have hc' : isWs c = false := by simpa using hc
      simp [wordsAux, hc', List.filter_cons, ih (c :: acc)]

theorem words_join (s : Str) :
    (words s).flatten = s.filter (fun c => !isWs c) := by
  simpa using wordsAux_join s []

theorem wordsAux_allNonWs (s : Str) :
    ∀ acc, (∀ c ∈ s, isWs c = false) → acc ≠ [] ∨ s ≠ [] →
      wordsAux s acc = [acc.reverse ++ s] := by
  induction s with
  | nil =>
    intro acc _ hne
    rcases hne with h1 | h2
    · simp [wordsAux, h1]
    · simp at h2
  | cons c cs ih =>
    intro acc h _
    have hc : isWs c = false := h c (List.mem_cons_self c cs)
    simp only [wordsAux, hc, Bool.false_eq_true, if_false]
    rw [ih (c :: acc) (fun x hx => h x (List.mem_cons_of_mem c hx)) (Or.inl (by simp))]
    simp

theorem wordsAux_append_nonWs (s : Str) :
    ∀ y acc, (∀ c ∈ s, isWs c = false) →
      wordsAux (s ++ y) acc = wordsAux y (s.reverse ++ acc) := by
  induction s with
  | nil => intro y acc _; simp
  | cons c cs ih =>
    intro y acc h
    have hc : isWs c = false := h c (List.mem_cons_self c cs)
    simp only [List.cons_append, wordsAux, hc, Bool.false_eq_true, if_false,
      List.append_eq]
    rw [ih y (c :: acc) (fun x hx => h x (List.mem_cons_of_mem c hx))]
    simp

theorem joinSep_ne_nil (w : Str) (t : List Str) (hw : w ≠ []) :
    joinSep [' '] (w :: t) ≠ [] := by
  cases t with
  | nil => simpa [joinSep] using hw
  | cons x t' =>
    simp only [joinSep]
    intro hcontra
    rcases List.append_eq_nil.mp hcontra with ⟨h1, _⟩
    rcases List.append_eq_nil.mp h1 with ⟨h2, _⟩
    exact hw h2

theorem words_joinSep (L : List Str)
    (h : ∀ w ∈ L, w ≠ [] ∧ ∀ c ∈ w, isWs c = false) :
    words (joinSep [' '] L) = L := by
  induction L with
  | nil => rfl
  | cons w t ih =>
    obtain ⟨hne, hnw⟩ := h w (List.mem_cons_self w t)
    cases t with
    | nil =>
      unfold words
      simp only [joinSep]
      rw [wordsAux_allNonWs w [] hnw (Or.inr hne)]
      simp
    | cons x t' =>
      unfold words
      simp only [joinSep]
      rw [List.append_assoc, wordsAux_append_nonWs w _ [] hnw]
      have hacc : w.reverse ++ [] ≠ [] := by simpa using hne
      simp only [List.cons_append, List.nil_append, wordsAux]
      have hsp : isWs ' ' = true := by decide
      rw [if_pos hsp, if_neg (by simpa using hne)]
      have := ih (fun v hv => h v (List.mem_cons_of_mem w hv))
      unfold words at this
      simp only [List.append_nil, List.reverse_reverse, List.append_eq, List.nil_append]
      rw [this]

theorem head_joinSep_nonws (L : List Str)
    (h : ∀ w ∈ L, w ≠ [] ∧ ∀ c ∈ w, isWs c = false) :
    ∀ c ∈ (joinSep [' '] L).head?, isWs c = false := by
  cases L with
  | nil => simp [joinSep]
  | cons w t =>
    obtain ⟨hne, hnw⟩ := h w (List.mem_cons_self w t)
    cases t with
    | nil =>
      intro c hc
      exact hnw c (List.mem_of_mem_head? hc)
    | cons x t' =>
      cases w with
      | nil => exact absurd rfl hne
      | cons a as =>
        intro c hc
        simp only [joinSep, List.append_assoc, List.cons_append, List.head?_cons,
          Option.mem_def, Option.some.injEq] at hc
        subst hc
        exact hnw a (List.mem_cons_self a as)

theorem getLast_joinSep_nonws (L : List Str)
    (h : ∀ w ∈ L, w ≠ [] ∧ ∀ c ∈ w, isWs c = false) :
    ∀ c ∈ (joinSep [' '] L).getLast?, isWs c = false := by
  induction L with
  | nil => simp [joinSep]
  | cons w t ih =>
    obtain ⟨hne, hnw⟩ := h w (List.mem_cons_self w t)
    cases t with
    | nil =>
      intro c hc
      exact hnw c (List.mem_of_mem_getLast? hc)
    | cons x t' =>
      intro c hc
      have hJne : joinSep [' '] (x :: t') ≠ [] :=
        joinSep_ne_nil x t' (h x (List.mem_cons_of_mem w (List.mem_cons_self x t'))).1
      simp only [joinSep, List.append_assoc, List.getLast?_append] at hc
      cases hJl : (joinSep [' '] (x :: t')).getLast? with
      | none => exact absurd (List.getLast?_eq_none_iff.mp hJl) hJne
      | some z =>
        rw [hJl] at hc
        simp only [Option.or, Option.mem_def, Option.some.injEq] at hc
        subst hc
        exact ih (fun v hv => h v (List.mem_cons_of_mem w hv)) z (by rw [hJl]; rfl)

theorem chain_nonws (w : Str) (h : ∀ c ∈ w, isWs c = false) :
    List.Chain' noAdjWs w := by
  induction w with
  | nil => simp
  | cons a as ih =>
    rw [List.chain'_cons']
    exact ⟨fun y _ => Or.inl (h a (List.mem_cons_self a as)),
      ih (fun c hc => h c (List.mem_cons_of_mem a hc))⟩

theorem chain_joinSep (L : List Str)
    (h : ∀ w ∈ L, w ≠ [] ∧ ∀ c ∈ w, isWs c = false) :
    List.Chain' noAdjWs (joinSep [' '] L) := by
  induction L with
  | nil => simp [joinSep]
  | cons w t ih =>
    obtain ⟨hne, hnw⟩ := h w (List.mem_cons_self w t)
    cases t with
    | nil => exact chain_nonws w hnw
    | cons x t' =>
      simp only [joinSep, List.append_assoc]
      rw [List.chain'_append]
      refine ⟨chain_nonws w hnw, ?_, ?_⟩
      · rw [List.singleton_append, List.chain'_cons']
        refine ⟨?_, ih (fun v hv => h v (List.mem_cons_of_mem w hv))⟩
        intro y hy
        exact Or.inr (head_joinSep_nonws (x :: t')
          (fun v hv => h v (List.mem_cons_of_mem w hv)) y hy)
      · intro a ha b _
        exact Or.inl (hnw a (List.mem_of_mem_getLast? ha))

theorem mem_joinSep_ws_eq_space (L : List Str)
    (h : ∀ w ∈ L, w ≠ [] ∧ ∀ c ∈ w, isWs c = false) :
    ∀ c ∈ joinSep [' '] L, isWs c = true → c = ' ' := by
  induction L with
  | nil => simp [joinSep]
  | cons w t ih =>
    obtain ⟨hne, hnw⟩ := h w (List.mem_cons_self w t)
    cases t with
    | nil =>
      intro c hc hcw
      rw [hnw c hc] at hcw
      exact absurd hcw (by simp)
    | cons x t' =>
      intro c hc hcw
      simp only [joinSep, List.append_assoc, List.singleton_append, List.mem_append,
        List.mem_cons] at hc
      rcases hc with h1 | h2 | h3
      · rw [hnw c h1] at hcw; exact absurd hcw (by simp)
      · exact h2
      · exact ih (fun v hv => h v (List.mem_cons_of_mem w hv)) c h3 hcw

theorem filter_joinSep (L : List Str)
    (h : ∀ w ∈ L, ∀ c ∈ w, isWs c = false) :
    (joinSep [' '] L).filter (fun c => !isWs c) = L.flatten := by
  induction L with
  | nil => rfl
  | cons w t ih =>
    have hw : (w.filter fun c => !isWs c) = w :=
      List.filter_eq_self.mpr (fun a ha => by
        rw [h w (List.mem_cons_self w t) a ha]; rfl)
    cases t with
    | nil => simp [joinSep, List.flatten_cons, hw]
    | cons x t' =>
      simp only [joinSep, List.append_assoc, List.singleton_append, List.flatten_cons]
      rw [List.filter_append, hw, List.filter_cons]
      have hsp : (!isWs ' ') = false := by decide
      rw [hsp]
      simp only [Bool.false_eq_true, if_false]
      rw [ih (fun v hv => h v (List.mem_cons_of_mem w hv))]
      rw [List.flatten_cons]

theorem strip_eq_nil_iff (s : Str) :
    stripChars s = [] ↔ ∀ c ∈ s, isWs c = true := by
  unfold stripChars
  rw [List.reverse_eq_nil_iff, List.dropWhile_eq_nil_iff]
  constructor
  · intro h c hc
    have hsplit := List.takeWhile_append_dropWhile isWs s
    rw [← hsplit] at hc
    rcases List.mem_append.mp hc with h1 | h2
    · exact mem_takeWhile_ws h1
    · exact h c (List.mem_reverse.mpr h2)
  · intro h x hx
    exact h x (((List.dropWhile_sublist isWs).subset) (List.mem_reverse.mp hx))

theorem words_ne_nil (s : Str) (h : stripChars s ≠ []) : words s ≠ [] := by
  intro hw
  apply h
  rw [strip_eq_nil_iff]
  intro c hc
  by_contra hcw
  have hfil : s.filter (fun c => !isWs c) ≠ [] := by
    rw [ne_eq, List.filter_eq_nil_iff]
    push_neg
    exact ⟨c, hc, by simpa using hcw⟩
  rw [← words_join s, hw] at hfil
  simp at hfil

theorem prepare_ne_nil (s : Str) (h : stripChars s ≠ []) :
    prepare_search_query s ≠ [] := by
  unfold prepare_search_query
  rw [if_neg h, words_strip]
  obtain ⟨w, t, hwt⟩ : ∃ w t, words s = w :: t := by
    cases hws : words s with
    | nil => exact absurd hws (words_ne_nil s h)
    | cons w t => exact ⟨w, t, rfl⟩
  rw [hwt]
  exact joinSep_ne_nil w t (words_good s w (hwt ▸ List.mem_cons_self w t)).1

theorem prepare_eq_nil_iff (s : Str) :
    prepare_search_query s = [] ↔ ∀ c ∈ s, isWs c = true := by
  by_cases h : stripChars s = []
  · unfold prepare_search_query
    rw [if_pos h]
    simp only [true_iff]
    exact (strip_eq_nil_iff s).mp h
  · constructor
    · intro hp
      exact absurd hp (prepare_ne_nil s h)
    · intro hall
      exact absurd ((strip_eq_nil_iff s).mpr hall) h

theorem prepare_eq_joinSep (s : Str) (h : stripChars s ≠ []) :
    prepare_search_query s = joinSep [' '] (words s) := by
  unfold prepare_search_query
  rw [if_neg h, words_strip]

/-- C6: the query normalizer returns the empty string exactly for empty or
whitespace-only input; otherwise the whitespace-split token list of the
output equals that of the input (every token survives unsplit, unfused,
unchanged and in order — so identifiers like NS:0001631 are preserved and
no stop words are removed), every non-whitespace character is kept in
order, every whitespace character of the output is a single interior space
standing between two tokens (runs collapsed, ends trimmed); together these
determine the output uniquely as the input's tokens joined by single
spaces.  `_normalize_query` of `app/search.py` agrees with
`prepare_search_query` of `app/hpo.py`. -/
theorem C6_normalizer_spec (s : Str) :
    (prepare_search_query s = [] ↔ ∀ c ∈ s, isWs c = true) ∧
    words (prepare_search_query s) = words s ∧
    (prepare_search_query s).filter (fun c => !isWs c) =
      s.filter (fun c => !isWs c) ∧
    List.Chain' noAdjWs (prepare_search_query s) ∧
    (∀ c ∈ (prepare_search_query s).head?, isWs c = false) ∧
    (∀ c ∈ (prepare_search_query s).getLast?, isWs c = false) ∧
    (∀ c ∈ prepare_search_query s, isWs c = true → c = ' ') ∧
    normalize_query s = prepare_search_query s := by
  by_cases h : stripChars s = []
  · have hp : prepare_search_query s = [] := by
      unfold prepare_search_query; rw [if_pos h]
    have hall := (strip_eq_nil_iff s).mp h
    refine ⟨prepare_eq_nil_iff s, ?_, ?_, ?_, ?_, ?_, ?_, rfl⟩
    · rw [hp]
      have hws : words s = [] := by
        unfold words
        rw [wordsAux_allWs s [] hall]
        rfl
      rw [hws]
      rfl
    · rw [hp]
      have hfs : List.filter (fun c => !isWs c) s = [] :=
        List.filter_eq_nil_iff.mpr (fun a ha => by simp [hall a ha])
      rw [hfs]
      rfl
    · rw [hp]; simp
    · rw [hp]; simp
    · rw [hp]; simp
    · rw [hp]; simp
  · have hp := prepare_eq_joinSep s h
    have hg := words_good s
    refine ⟨prepare_eq_nil_iff s, ?_, ?_, ?_, ?_, ?_, ?_, rfl⟩
    · rw [hp]
      exact words_joinSep (words s) hg
    · rw [hp, filter_joinSep _ (fun w hw => (hg w hw).2), words_join]
    · rw [hp]; exact chain_joinSep _ hg
    · rw [hp]; exact head_joinSep_nonws _ hg
    · rw [hp]; exact getLast_joinSep_nonws _ hg
    · rw [hp]; exact mem_joinSep_ws_eq_space _ hg

/-- Witness for C6 at concrete inputs: a whitespace-only query normalizes to
the empty string; the padded clinical phrase of the spec keeps its letters
and its token list and collapses to single spaces; an identifier token
survives unchanged and unsplit. -/
theorem C6_normalizer_spec_witness :
    prepare_search_query "   ".toList = [] ∧
    words (prepare_search_query "  atrial   septal   defect  ".toList) =
      words "  atrial   septal   defect  ".toList ∧
    prepare_search_query "  atrial   septal   defect  ".toList =
      "atrial septal defect".toList ∧
    prepare_search_query "find NS:0001631 and atrial defect".toList =
      "find NS:0001631 and atrial defect".toList ∧
    (prepare_search_query "  atrial   septal  ".toList).filter
        (fun c => !isWs c) =
      ("  atrial   septal  ".toList).filter (fun c => !isWs c) :=
  ⟨(C6_normalizer_spec "   ".toList).1.mpr (by decide),
   (C6_normalizer_spec "  atrial   septal   defect  ".toList).2.1,
   by decide,
   by decide,
   (C6_normalizer_spec "  atrial   septal  ".toList).2.2.1⟩

/-- C7: the query normalizer is idempotent, for both
`prepare_search_query` (app/hpo.py) and `_normalize_query`
(app/search.py). -/
theorem C7_normalizer_idempotent (s : Str) :
    prepare_search_query (prepare_search_query s) = prepare_search_query s ∧
    normalize_query (normalize_query s) = normalize_query s := by
  suffices hmain : prepare_search_query (prepare_search_query s) =
      prepare_search_query s by
    exact ⟨hmain, hmain⟩
  by_cases h : stripChars s = []
  · have hp : prepare_search_query s = [] := by
      unfold prepare_search_query; rw [if_pos h]
    rw [hp]
    unfold prepare_search_query
    rw [if_pos (by rfl)]
  · have hps := prepare_eq_joinSep s h
    have hne := prepare_ne_nil s h
    have h2 : stripChars (prepare_search_query s) ≠ [] := by
      intro hc
      have hall := (strip_eq_nil_iff _).mp hc
      cases hp : prepare_search_query s with
      | nil => exact hne hp
      | cons a as =>
        have hhead : isWs a = false := by
          have hh := head_joinSep_nonws (words s) (words_good s)
          rw [← hps, hp] at hh
          exact hh a rfl
        have hw : isWs a = true := hall a (hp ▸ List.mem_cons_self a as)
        rw [hhead] at hw
        exact absurd hw (by simp)
    rw [prepare_eq_joinSep _ h2, hps,
      words_joinSep (words s) (words_good s)]

theorem searchLoop_eq (q : Str) (limit : Nat) :
    ∀ (ts : List HpoRec) (n : Nat), n < limit →
      searchLoop q limit ts n =
        ((ts.filter (recMatches q)).take (limit - n)).map projectRec := by
  intro ts
  induction ts with
  | nil => intro n _; simp [searchLoop]
  | cons t ts ih =>
    intro n hn
    by_cases hm : recMatches q t = true
    · simp only [searchLoop, hm, if_true, List.filter_cons, if_pos hm]
      have hpos : limit - n = (limit - n - 1) + 1 := by omega
      rw [hpos, List.take_succ_cons, List.map_cons]
      by_cases hb : limit ≤ n + 1
      · have hz : limit - n - 1 = 0 := by omega
        rw [if_pos hb, hz, List.take_zero, List.map_nil]
      · rw [if_neg hb, ih (n + 1) (by omega)]
        have hd : limit - (n + 1) = limit - n - 1 := by omega
        rw [hd]
    · have hm' : recMatches q t = false := by simpa using hm
      simp only [searchLoop, hm', Bool.false_eq_true, if_false,
        List.filter_cons, ih n hn]

/-- Counterexample for C5: on a snapshot with one record (name "heart",
501-character definition) the query `" heart"` (leading space) matches even
though the raw query string occurs in no field (the code matches the
stripped query), the returned row is a truncated projection rather than the
snapshot record, and `limit = 0` still returns one row instead of zero. -/
theorem C5_counterexample :
    search [⟨"HP:1".toList, "heart".toList, List.replicate 501 'd', []⟩]
        " heart".toList 5 =
      [⟨"HP:1".toList, "heart".toList, List.replicate 500 'd', []⟩] ∧
    (∀ f ∈ [("HP:1".toList : Str), "heart".toList, List.replicate 501 'd', []],
      ciContains f " heart".toList = false) ∧
    (⟨"HP:1".toList, "heart".toList, List.replicate 500 'd', []⟩ : HpoRec) ≠
      ⟨"HP:1".toList, "heart".toList, List.replicate 501 'd', []⟩ ∧
    search [⟨"HP:1".toList, "heart".toList, List.replicate 501 'd', []⟩]
        "heart".toList 0 =
      [⟨"HP:1".toList, "heart".toList, List.replicate 500 'd', []⟩] := by
  refine ⟨by decide, by decide, by decide, by decide⟩

/-- C5 (amended): for every snapshot, query and `limit ≥ 1`: a query that is
empty after normalization returns exactly the first `limit` snapshot records
in load order, unfiltered; otherwise the result is, in snapshot order, the
first at-most-`limit` records whose id, name, definition or flattened
synonyms string contains the stripped query case-insensitively, each emitted
as its projection (definition truncated to 500 characters). -/
theorem C5_search_spec (terms : List HpoRec) (query : Str) (limit : Nat)
    (hlim : 1 ≤ limit) :
    (prepare_search_query query = [] →
      search terms query limit = terms.take limit) ∧
    (prepare_search_query query ≠ [] →
      search terms query limit =
        ((terms.filter (recMatches (stripChars query))).take limit).map
          projectRec) := by
  constructor
  · intro hq
    have hs : stripChars query = [] :=
      (strip_eq_nil_iff query).mpr ((prepare_eq_nil_iff query).mp hq)
    by_cases ht : terms = []
    · simp [search, ht]
    · simp [search, ht, hs]
  · intro hq
    have hs : stripChars query ≠ [] := fun hc =>
      hq ((prepare_eq_nil_iff query).mpr ((strip_eq_nil_iff query).mp hc))
    by_cases ht : terms = []
    · simp [search, ht]
    · simp only [search, if_neg ht, if_neg hs]
      rw [searchLoop_eq (stripChars query) limit terms 0 (by omega)]
      rw [Nat.sub_zero]

/-- Witness for C5 at concrete inputs: the blank-query browse branch and a
case-insensitive match. -/
theorem C5_search_spec_witness :
    search [⟨"HP:1".toList, "heart".toList, "d".toList, []⟩] "  ".toList 2 =
      [⟨"HP:1".toList, "heart".toList, "d".toList, []⟩] ∧
    search [⟨"HP:1".toList, "heart".toList, "d".toList, []⟩] "HEART".toList 2 =
      [⟨"HP:1".toList, "heart".toList, "d".toList, []⟩] :=
  ⟨((C5_search_spec [⟨"HP:1".toList, "heart".toList, "d".toList, []⟩]
      "  ".toList 2 (by decide)).1 (by decide)).trans (by decide),
   ((C5_search_spec [⟨"HP:1".toList, "heart".toList, "d".toList, []⟩]
      "HEART".toList 2 (by decide)).2 (by decide)).trans (by decide)⟩

theorem searchLoop_mem (q : Str) (limit : Nat) :
    ∀ ts n r, r ∈ searchLoop q limit ts n → ∃ t ∈ ts, r = projectRec t := by
  intro ts
  induction ts with
  | nil => intro n r hr; simp [searchLoop] at hr
  | cons t ts ih =>
    intro n r hr
    by_cases hm : recMatches q t = true
    · simp only [searchLoop, hm, if_true] at hr
      by_cases hb : limit ≤ n + 1
      · rw [if_pos hb] at hr
        simp only [List.mem_singleton] at hr
        exact ⟨t, List.mem_cons_self t ts, hr⟩
      · rw [if_neg hb] at hr
        rcases List.mem_cons.mp hr with h1 | h2
        · exact ⟨t, List.mem_cons_self t ts, h1⟩
        · obtain ⟨t', ht', hr'⟩ := ih (n + 1) r h2
          exact ⟨t', List.mem_cons_of_mem t ht', hr'⟩
    · have hm' : recMatches q t = false := by simpa using hm
      simp only [searchLoop, hm', Bool.false_eq_true, if_false] at hr
      obtain ⟨t', ht', hr'⟩ := ih n r hr
      exact ⟨t', List.mem_cons_of_mem t ht', hr'⟩

theorem search_hpo_ok_shape (getIndex : Except Str Unit)
    (embed : Str → Except Str (Option Vec))
    (indexSearch : Str → ActualParams → Except Str (List Hit))
    (query : Str) (limit : Nat) (out : List OutRec)
    (h : search_hpo getIndex embed indexSearch query limit = .ok out) :
    ∃ hits : List Hit, out = hits.map projectHit := by
  unfold search_hpo at h
  split at h
  · exact absurd h (by simp)
  · split at h
    · exact absurd h (by simp)
    · split at h
      · exact absurd h (by simp)
      · simp only [Except.ok.injEq] at h
        exact ⟨_, h.symm⟩

/-- Counterexample for C9: the empty-query browse branch of the fallback
`search` emits the raw snapshot record, so a 501-character source
definition reaches the caller with length 501, not 500. -/
theorem C9_counterexample :
    (search [⟨"HP:1".toList, "n".toList, List.replicate 501 'd', []⟩]
        [] 5).map (fun r => r.definition.length) = [501] := by
  decide

/-- C9 (amended): every record emitted through the shared per-record
projections — the hit projection of the primary paths (`search_hpo`,
`search_hpo_results`) and the match projection of the fallback `search` with
a non-blank query — has its definition truncated to exactly 500 characters
when the source exceeds 500 and kept unchanged otherwise; the fallback
empty-query browse branch is exempt, returning raw snapshot records. -/
theorem C9_truncation_bound
    (terms : List HpoRec) (query : Str) (limit : Nat)
    (getIndex : Except Str Unit) (embed : Str → Except Str (Option Vec))
    (indexSearch : Str → ActualParams → Except Str (List Hit))
    (q2 : Str) (limit2 : Nat) (out : List OutRec)
    (hq : stripChars query ≠ [])
    (hok : search_hpo getIndex embed indexSearch q2 limit2 = .ok out) :
    (∀ t : HpoRec,
      (projectRec t).definition.length = min 500 t.definition.length ∧
      (500 ≤ t.definition.length → (projectRec t).definition.length = 500) ∧
      (t.definition.length ≤ 500 → (projectRec t).definition = t.definition)) ∧
    (∀ h : Hit,
      (projectHit h).definition.length =
        min 500 (h.definition.getD []).length ∧
      (500 ≤ (h.definition.getD []).length →
        (projectHit h).definition.length = 500)) ∧
    (∀ r ∈ search terms query limit, ∃ t ∈ terms, r = projectRec t) ∧
    (∃ hits : List Hit, out = hits.map projectHit) := by
  refine ⟨?_, ?_, ?_, ?_⟩
  · intro t
    refine ⟨?_, ?_, ?_⟩
    · simp [projectRec, List.length_take]
    · intro hlen
      simp [projectRec, List.length_take]
      omega
    · intro hlen
      simp [projectRec, List.take_of_length_le hlen]
  · intro h
    constructor
    · simp [projectHit, List.length_take]
    · intro hlen
      simp [projectHit, List.length_take]
      omega
  · intro r hr
    by_cases ht : terms = []
    · subst ht
      simp [search] at hr
    · simp only [search, if_neg ht, if_neg hq] at hr
      exact searchLoop_mem (stripChars query) limit terms 0 r hr
  · exact search_hpo_ok_shape getIndex embed indexSearch q2 limit2 out hok

/-- Witness for C9 at concrete inputs: a 501-character fallback definition
and a 700-character hit definition are truncated to exactly 500. -/
theorem C9_truncation_bound_witness :
    (projectRec ⟨"HP:1".toList, "n".toList, List.replicate 501 'd', []⟩
      ).definition.length = 500 ∧
    (projectHit ⟨[], some "HP:2".toList, some "m".toList,
        some (List.replicate 700 'e'), none⟩).definition.length = 500 :=
  ⟨((C9_truncation_bound [] "q".toList 5 (.ok ()) (fun _ => .ok none)
      (fun _ _ => .ok []) "q".toList 5 [] (by decide) (by rfl)).1
      ⟨"HP:1".toList, "n".toList, List.replicate 501 'd', []⟩).2.1 (by decide),
   ((C9_truncation_bound [] "q".toList 5 (.ok ()) (fun _ => .ok none)
      (fun _ _ => .ok []) "q".toList 5 [] (by decide) (by rfl)).2.1
      ⟨[], some "HP:2".toList, some "m".toList,
        some (List.replicate 700 'e'), none⟩).2 (by decide)⟩

theorem splitOnce_eq_none_iff (c : Char) (s : Str) :
    splitOnce c s = none ↔ ∀ x ∈ s, x ≠ c := by
  induction s with
  | nil => simp [splitOnce]
  | cons a as ih =>
    by_cases ha : a = c
    · subst ha
      simp [splitOnce]
    · simp only [splitOnce, if_neg ha]
      constructor
      · intro h x hx
        rcases List.mem_cons.mp hx with h1 | h2
        · subst h1; exact ha
        · exact ih.mp (by simpa using h) x h2
      · intro h
        have : splitOnce c as = none := ih.mpr (fun x hx => h x (List.mem_cons_of_mem a hx))
        simp [this]

theorem splitOnce_eq_some (c : Char) :
    ∀ (s a b : Str), splitOnce c s = some (a, b) →
      s = a ++ c :: b ∧ ∀ x ∈ a, x ≠ c := by
  intro s
  induction s with
  | nil => intro a b h; simp [splitOnce] at h
  | cons d ds ih =>
    intro a b h
    by_cases hd : d = c
    · subst hd
      simp only [splitOnce, if_pos rfl, if_true, Option.some.injEq,
        Prod.mk.injEq] at h
      obtain ⟨h1, h2⟩ := h
      subst h1
      subst h2
      exact ⟨rfl, by simp⟩
    · simp only [splitOnce, if_neg hd] at h
      cases hs : splitOnce c ds with
      | none => rw [hs] at h; simp at h
      | some p =>
        obtain ⟨p1, p2⟩ := p
        rw [hs] at h
        simp only [Option.map_some', Option.some.injEq, Prod.mk.injEq] at h
        obtain ⟨ha, hb⟩ := h
        obtain ⟨hds, hp1⟩ := ih p1 p2 hs
        subst hb
        constructor
        · rw [← ha, hds]
          simp
        · intro x hx
          rw [← ha] at hx
          rcases List.mem_cons.mp hx with h1 | h2
          · subst h1; exact hd
          · exact hp1 x h2

theorem splitOnce_append (c : Char) :
    ∀ (a b : Str), (∀ x ∈ a, x ≠ c) → splitOnce c (a ++ c :: b) = some (a, b) := by
  intro a
  induction a with
  | nil => intro b _; simp [splitOnce]
  | cons d ds ih =>
    intro b h
    have hd : d ≠ c := h d (List.mem_cons_self d ds)
    simp only [List.cons_append, splitOnce, if_neg hd, List.append_eq]
    rw [ih b (fun x hx => h x (List.mem_cons_of_mem d hx))]
    rfl

theorem strip_eq_self_of_nonws (s : Str) (h : ∀ c ∈ s, isWs c = false) :
    stripChars s = s := by
  have hdw : ∀ (l : Str), (∀ c ∈ l, isWs c = false) → l.dropWhile isWs = l := by
    intro l hl
    cases l with
    | nil => rfl
    | cons a as =>
      rw [List.dropWhile_cons, if_neg (by simp [hl a (List.mem_cons_self a as)])]
  unfold stripChars
  rw [hdw s h, hdw s.reverse (fun c hc => h c (List.mem_reverse.mp hc)),
    List.reverse_reverse]

theorem get_term_by_id_congr (terms : List HpoRec) (y1 y2 : Str)
    (h : lookupQuery y1 = lookupQuery y2) :
    get_term_by_id terms y1 = get_term_by_id terms y2 := by
  unfold get_term_by_id
  rw [h]

/-- C8: for a record of the fallback snapshot whose stored id `X` is a
canonical colon-delimited id (whitespace-free, underscore-free) that is
unique up to case among the stored ids, `get_term_by_id` of `X` returns a
record with id `X`; `get_term_by_id` of the underscore form of `X` (first
colon replaced by an underscore) returns the same record; the match is an
exact case-insensitive comparison and `none` is reported when no stored id
matches. -/
theorem C8_lookup_round_trip (terms : List HpoRec) (X : Str) (r : HpoRec)
    (hmem : r ∈ terms) (hid : r.hpo_id = X)
    (hnws : ∀ c ∈ X, isWs c = false)
    (hund : ∀ c ∈ X, c ≠ '_')
    (huniq : ∀ t ∈ terms, upperStr t.hpo_id = upperStr X → t.hpo_id = X) :
    (∃ r', get_term_by_id terms X = some r' ∧ r'.hpo_id = X) ∧
    get_term_by_id terms (replaceFirst ':' '_' X) = get_term_by_id terms X ∧
    (∀ y, (∀ t ∈ terms, upperStr t.hpo_id ≠ upperStr (lookupQuery y)) →
      get_term_by_id terms y = none) := by
  have hterms : terms ≠ [] := List.ne_nil_of_mem hmem
  have hnotmem : '_' ∉ X := fun hm => hund '_' hm rfl
  have hstrip : stripChars X = X := strip_eq_self_of_nonws X hnws
  have hlq : lookupQuery X = X := by
    unfold lookupQuery
    rw [if_neg (by simpa using hnotmem), hstrip]
  refine ⟨?_, ?_, ?_⟩
  · unfold get_term_by_id
    rw [if_neg hterms, hlq]
    cases hf : terms.find? (fun t => upperStr t.hpo_id == upperStr X) with
    | none =>
      exfalso
      have hno := List.find?_eq_none.mp hf r hmem
      apply hno
      rw [hid]
      simp
    | some t =>
      have hp := List.find?_some hf
      have ht : t.hpo_id = X :=
        huniq t (List.mem_of_find?_eq_some hf) (by simpa using hp)
      exact ⟨projectRec t, rfl, by simp [projectRec, ht]⟩
  · apply get_term_by_id_congr
    rw [hlq]
    cases hsc : splitOnce ':' X with
    | none =>
      have hrf : replaceFirst ':' '_' X = X := by
        unfold replaceFirst; rw [hsc]
      rw [hrf, hlq]
    | some p =>
      obtain ⟨a, b⟩ := p
      obtain ⟨hx, _⟩ := splitOnce_eq_some ':' X a b hsc
      have hX' : replaceFirst ':' '_' X = a ++ '_' :: b := by
        unfold replaceFirst; rw [hsc]
      have hcont' : (a ++ '_' :: b).contains '_' = true := by simp
      have hnws' : ∀ c ∈ a ++ '_' :: b, isWs c = false := by
        intro c hc
        rcases List.mem_append.mp hc with h1 | h2
        · exact hnws c (hx ▸ List.mem_append.mpr (Or.inl h1))
        · rcases List.mem_cons.mp h2 with h3 | h4
          · subst h3; decide
          · exact hnws c
              (hx ▸ List.mem_append.mpr (Or.inr (List.mem_cons_of_mem _ h4)))
      have hstrip' : stripChars (a ++ '_' :: b) = a ++ '_' :: b :=
        strip_eq_self_of_nonws _ hnws'
      have hna' : ∀ x ∈ a, x ≠ '_' := by
        intro x hxa
        exact hund x (hx ▸ List.mem_append.mpr (Or.inl hxa))
      rw [hX']
      unfold lookupQuery
      simp only [hcont', if_true, hstrip']
      unfold replaceFirst
      rw [splitOnce_append '_' a b hna']
      exact hx.symm
  · intro y hy
    unfold get_term_by_id
    rw [if_neg hterms]
    have hfn : terms.find?
        (fun t => upperStr t.hpo_id == upperStr (lookupQuery y)) = none := by
      rw [List.find?_eq_none]
      intro t ht hbeq
      exact hy t ht (by simpa using hbeq)
    rw [hfn]

/-- Witness for C8 at a concrete one-record snapshot. -/
theorem C8_lookup_round_trip_witness :
    get_term_by_id [⟨"HP:0001631".toList, "ASD".toList, "dd".toList, []⟩]
        "HP_0001631".toList =
      get_term_by_id [⟨"HP:0001631".toList, "ASD".toList, "dd".toList, []⟩]
        "HP:0001631".toList ∧
    get_term_by_id [⟨"HP:0001631".toList, "ASD".toList, "dd".toList, []⟩]
        "HP:0001631".toList =
      some ⟨"HP:0001631".toList, "ASD".toList, "dd".toList, []⟩ ∧
    get_term_by_id [⟨"HP:0001631".toList, "ASD".toList, "dd".toList, []⟩]
        "ZZ:9".toList = none := by
  have h := C8_lookup_round_trip
    [⟨"HP:0001631".toList, "ASD".toList, "dd".toList, []⟩]
    "HP:0001631".toList
    ⟨"HP:0001631".toList, "ASD".toList, "dd".toList, []⟩
    (by decide) rfl (by decide) (by decide) (by decide)
  refine ⟨?_, by decide, h.2.2 "ZZ:9".toList (by decide)⟩
  have h2 := h.2.1
  rw [show replaceFirst ':' '_' "HP:0001631".toList = "HP_0001631".toList from
    by decide] at h2
  exact h2

/-- C1: the search funnel never raises: for every primary-client behavior
(including an always-raising client), snapshot, query (arbitrary, including
empty, whitespace-only or pathological input) and `limit ≥ 1`,
`search_funnel` returns an ok record list; when the primary fails the list
is exactly the fallback search result for the normalized query. -/
theorem C1_search_funnel_never_raises
    (primary : Str → Nat → Except Str (List HpoRec))
    (snapshot : List HpoRec) (query : Str) (limit : Nat)
    (_hlim : 1 ≤ limit) :
    ∃ rs : List HpoRec,
      search_funnel primary snapshot query limit = .ok rs ∧
      (∀ e, primary query limit = .error e →
        rs = search snapshot (prepare_search_query query) limit) := by
  cases hp : primary query limit with
  | ok rs =>
    refine ⟨rs, ?_, ?_⟩
    · unfold search_funnel; rw [hp]
    · intro e he; simp at he
  | error e =>
    refine ⟨search snapshot (prepare_search_query query) limit, ?_,
      fun _ _ => rfl⟩
    unfold search_funnel; rw [hp]

/-- Witness for C1: an unreachable primary (always raising), empty snapshot,
empty query, limit 1 — the funnel still returns an ok empty list. -/
theorem C1_search_funnel_never_raises_witness :
    search_funnel (fun _ _ => Except.error "connection refused".toList)
      [] [] 1 = Except.ok [] := by
  obtain ⟨rs, h1, h2⟩ := C1_search_funnel_never_raises
    (fun _ _ => Except.error "connection refused".toList) [] [] 1 (by decide)
  rw [h1, h2 "connection refused".toList rfl]
  rfl

/-- C2: the batch term resolver returns matches and debug rows as two
parallel lists of exactly the input length, in input order; an input term
whose search yields no candidate produces a match row with the original
term and empty id/name/definition fields and is never dropped. -/
theorem C2_build_hpo_matches_alignment
    (searcher : Str → List OutRec × DebugInfo) (terms : List Str) :
    (build_hpo_matches searcher terms).1.length = terms.length ∧
    (build_hpo_matches searcher terms).2.length = terms.length ∧
    (∀ (i : Nat) (t : Str), terms[i]? = some t →
      ∃ (m : HPOMatch) (d : TermDebug),
        (build_hpo_matches searcher terms).1[i]? = some m ∧
        (build_hpo_matches searcher terms).2[i]? = some d ∧
        m.medical_term = t ∧ d.term = t ∧
        ((searcher t).1 = [] → m = ⟨t, some [], some [], some []⟩)) := by
  induction terms with
  | nil =>
    refine ⟨rfl, rfl, ?_⟩
    intro i t ht
    simp at ht
  | cons term rest ih =>
    refine ⟨?_, ?_, ?_⟩
    · simp only [build_hpo_matches, List.length_cons, ih.1]
    · simp only [build_hpo_matches, List.length_cons, ih.2.1]
    · intro i t ht
      cases i with
      | zero =>
        simp only [List.getElem?_cons_zero, Option.some.injEq] at ht
        subst ht
        simp only [build_hpo_matches, List.getElem?_cons_zero]
        refine ⟨_, _, rfl, rfl, ?_, rfl, ?_⟩
        · cases hres : (searcher term).1 with
          | nil => simp [hres]
          | cons top tl => simp [hres]
        · intro hres
          simp [hres]
      | succ n =>
        simp only [List.getElem?_cons_succ] at ht
        simp only [build_hpo_matches, List.getElem?_cons_succ]
        exact ih.2.2 n t ht

/-- Witness for C2: two concrete terms against a searcher that finds
nothing — two rows, first carrying its original term. -/
theorem C2_build_hpo_matches_alignment_witness :
    (build_hpo_matches (fun t => ([], initDebug t))
        ["Tachycardia".toList, "Nonexistentfindingxyz".toList]).1.length = 2 ∧
    ((build_hpo_matches (fun t => ([], initDebug t))
        ["Tachycardia".toList, "Nonexistentfindingxyz".toList]).1[0]?).map
      HPOMatch.medical_term = some "Tachycardia".toList := by
  have h := C2_build_hpo_matches_alignment (fun t => ([], initDebug t))
    ["Tachycardia".toList, "Nonexistentfindingxyz".toList]
  constructor
  · rw [h.1]
    rfl
  · obtain ⟨m, d, hm, _, hmt, _, _⟩ :=
      h.2.2 0 "Tachycardia".toList (by rfl)
    rw [hm]
    simp [hmt]

/-- C3 (code evaluated at the failing input): with MEILISEARCH_URL unset or
set to the empty string and a fresh module state, `get_client` does NOT
raise a configuration error — it silently constructs a client against the
default localhost URL.  The spec (and the repository's own test
`test_get_client_raises_when_url_unset`) require a ValueError naming
MEILISEARCH_URL instead. -/
theorem C3_get_client_defaults_instead_of_raising :
    get_client (some []) ⟨none⟩ =
      .ok ("http://localhost:7700".toList,
        ⟨some "http://localhost:7700".toList⟩) ∧
    get_client none ⟨none⟩ =
      .ok ("http://localhost:7700".toList,
        ⟨some "http://localhost:7700".toList⟩) := by
  constructor <;> rfl

theorem foldl_append_map {α β : Type} (f : α → β) :
    ∀ (l : List α) (out : List β),
      l.foldl (fun acc n => acc ++ [f n]) out = out ++ l.map f := by
  intro l
  induction l with
  | nil => intro out; simp
  | cons a as ih =>
    intro out
    simp only [List.foldl_cons, List.map_cons, ih]
    simp

theorem parse_obographs_foldl (gs : List ObGraph) :
    ∀ out : List HpoRec,
      gs.foldl (fun out g =>
          g.nodes.foldl (fun out n => out ++ [parseNode n]) out) out =
        out ++ gs.flatMap (fun g => g.nodes.map parseNode) := by
  induction gs with
  | nil => intro out; simp
  | cons g gs ih =>
    intro out
    simp only [List.foldl_cons, List.flatMap_cons]
    rw [foldl_append_map parseNode g.nodes out, ih]
    simp [List.append_assoc]

/-- Counterexample for C4: a node whose identifier resolves to the empty
string is not filtered out: ingestion emits a record with an empty id, and
the empty-query fallback search hands exactly that record to its caller. -/
theorem C4_counterexample :
    parse_obographs [⟨[⟨none, some "Node".toList, none, []⟩]⟩] =
      [⟨[], "Node".toList, [], []⟩] ∧
    search (parse_obographs [⟨[⟨none, some "Node".toList, none, []⟩]⟩])
        [] 5 = [⟨[], "Node".toList, [], []⟩] := by
  constructor <;> decide

/-- C4 (amended): snapshot ingestion performs no id filtering: it emits
exactly one record per source node of every graph, in order — the per-node
projection mapped over all nodes — so a node whose identifier resolves to
the empty string yields a record with an empty id, which the fallback
search path can return to callers. -/
theorem C4_parse_no_filtering (gs : List ObGraph) :
    parse_obographs gs = gs.flatMap (fun g => g.nodes.map parseNode) ∧
    (parse_obographs gs).length =
      (gs.map (fun g => g.nodes.length)).sum := by
  have h := parse_obographs_foldl gs []
  have heq : parse_obographs gs =
      gs.flatMap (fun g => g.nodes.map parseNode) := by
    unfold parse_obographs
    simpa using h
  refine ⟨heq, ?_⟩
  rw [heq, List.length_flatMap]
  have hmap : List.map (List.length ∘ fun g : ObGraph =>
      List.map parseNode g.nodes) gs =
      List.map (fun g : ObGraph => g.nodes.length) gs := by
    apply List.map_congr_left
    intro g _
    simp [Function.comp]
  rw [hmap]

/-- C10: `search_hpo_results` never lets a failure escape — it always
returns a (results, debug) pair: an empty query after normalization and
trimming yields an empty list with the error field set to the fixed
message; a failure of the index client (`get_index`), of the embedding, or
of `index.search` yields an empty list with the error field set to the
failure message; on success the results are the projected hits and no error
is recorded. -/
theorem C10_search_hpo_results_never_raises
    (getIndex : Except Str Unit) (embed : Str → Except Str (Option Vec))
    (indexSearch : Str → ActualParams → Except Str (List Hit))
    (query : Str) (limit : Nat) :
    (effective_query query = [] →
      (search_hpo_results getIndex embed indexSearch query limit).1 = [] ∧
      (search_hpo_results getIndex embed indexSearch query limit).2.error =
        some "empty query after normalization".toList) ∧
    (∀ e, effective_query query ≠ [] → getIndex = .error e →
      (search_hpo_results getIndex embed indexSearch query limit).1 = [] ∧
      (search_hpo_results getIndex embed indexSearch query limit).2.error =
        some e) ∧
    (∀ e, effective_query query ≠ [] → getIndex = .ok () →
      embed (effective_query query) = .error e →
      (search_hpo_results getIndex embed indexSearch query limit).1 = [] ∧
      (search_hpo_results getIndex embed indexSearch query limit).2.error =
        some e) ∧
    (∀ e vec?, effective_query query ≠ [] → getIndex = .ok () →
      embed (effective_query query) = .ok vec? →
      indexSearch (effective_query query) (mkActualParams limit vec?) =
        .error e →
      (search_hpo_results getIndex embed indexSearch query limit).1 = [] ∧
      (search_hpo_results getIndex embed indexSearch query limit).2.error =
        some e ∧
      (search_hpo_results getIndex embed indexSearch query limit
        ).2.search_params = some (mkParamsDbg limit vec?)) ∧
    (∀ hits vec?, effective_query query ≠ [] → getIndex = .ok () →
      embed (effective_query query) = .ok vec? →
      indexSearch (effective_query query) (mkActualParams limit vec?) =
        .ok hits →
      (search_hpo_results getIndex embed indexSearch query limit).1 =
        hits.map projectHit ∧
      (search_hpo_results getIndex embed indexSearch query limit).2.error =
        none ∧
      (search_hpo_results getIndex embed indexSearch query limit
        ).2.hit_count = hits.length) := by
  refine ⟨?_, ?_, ?_, ?_, ?_⟩
  · intro hq
    unfold search_hpo_results
    rw [if_pos hq]
    exact ⟨rfl, rfl⟩
  · intro e hq hgi
    subst hgi
    unfold search_hpo_results
    rw [if_neg hq]
    exact ⟨rfl, rfl⟩
  · intro e hq hgi hemb
    subst hgi
    unfold search_hpo_results
    rw [if_neg hq]
    simp [hemb]
  · intro e vec? hq hgi hemb hsearch
    subst hgi
    unfold search_hpo_results
    rw [if_neg hq]
    simp [hemb, hsearch]
  · intro hits vec? hq hgi hemb hsearch
    subst hgi
    unfold search_hpo_results
    rw [if_neg hq]
    simp [hemb, hsearch, initDebug]

/-- Witness for C10 at concrete inputs: a whitespace-only query, a raising
index client, a raising embedding, and a successful call. -/
theorem C10_search_hpo_results_never_raises_witness :
    (search_hpo_results (.ok ()) (fun _ => .ok none) (fun _ _ => .ok [])
        "  ".toList 5).2.error =
      some "empty query after normalization".toList ∧
    (search_hpo_results (.error "conn refused".toList) (fun _ => .ok none)
        (fun _ _ => .ok []) "hp".toList 5).2.error =
      some "conn refused".toList ∧
    (search_hpo_results (.ok ()) (fun _ => .error "embed crash".toList)
        (fun _ _ => .ok []) "hp".toList 5).1 = [] ∧
    (search_hpo_results (.ok ()) (fun _ => .ok none) (fun _ _ => .ok [])
        "hp".toList 5).2.error = none := by
  refine ⟨?_, ?_, ?_, ?_⟩
  · exact ((C10_search_hpo_results_never_raises (.ok ()) (fun _ => .ok none)
      (fun _ _ => .ok []) "  ".toList 5).1 (by decide)).2
  · exact ((C10_search_hpo_results_never_raises (.error "conn refused".toList)
      (fun _ => .ok none) (fun _ _ => .ok []) "hp".toList 5).2.1
      "conn refused".toList (by decide) rfl).2
  · exact ((C10_search_hpo_results_never_raises (.ok ())
      (fun _ => .error "embed crash".toList) (fun _ _ => .ok [])
      "hp".toList 5).2.2.1 "embed crash".toList (by decide) rfl rfl).1
  · exact ((C10_search_hpo_results_never_raises (.ok ()) (fun _ => .ok none)
      (fun _ _ => .ok []) "hp".toList 5).2.2.2.2 [] none (by decide) rfl rfl
      rfl).2.1
